import Mathlib

/-!
Verification of the Misago extension-hook framework and theme admin views.

The hook engine (InterceptionHook / NotificationHook, source files
filter.py and action.py) is imported by misago/hooks/__init__.py but its
body is not part of the excerpt, so the engine is modelled from the
design document (sections 4.1 and 4.2).  The theme admin views
(misago/themes/admin/views.py) are embedded directly from the source.
-/

namespace Misago

namespace Hooks

/-- Modelled from the spec: the behaviour of one interceptor link of an
InterceptionHook (filter.py is missing from the excerpt).  Per the spec an
interceptor "may call next(*possibly-modified-args)" (transforming the
arguments with a function f and the value returned by next with a function
g), may short-circuit by returning a value without calling next, or may
raise, aborting the whole chain. -/
inductive IStep (α β : Type) where
  | callNext (f : α → α) (g : β → β)
  | shortCircuit (v : β)
  | raiseErr (e : String)

/-- Modelled from the spec: a registered interceptor carries an identity
(used to observe the call order), the priority supplied at registration,
and its behaviour. -/
structure Interceptor (α β : Type) where
  id : Nat
  priority : Nat
  step : IStep α β

/-- True when the interceptor forwards to the rest of the chain. -/
def IStep.isForward {α β : Type} : IStep α β → Bool
  | .callNext _ _ => true
  | _ => false

/-- One observable call made during an invoke: either an interceptor
(identified by its id) or the terminal default callable, together with the
arguments it received. -/
inductive CallEvent (α : Type) where
  | intercept (id : Nat) (args : α)
  | callDefault (args : α)
deriving DecidableEq

/-- Modelled from the spec: register inserts the interceptor into the
ordered chain ahead of the default, "ordered by priority then registration
order (stable)" — the new interceptor goes after every element of equal or
lower priority already in the chain. -/
def insertChain {α β : Type} (x : Interceptor α β) :
    List (Interceptor α β) → List (Interceptor α β)
  | [] => [x]
  | y :: ys =>
    if y.priority ≤ x.priority then y :: insertChain x ys else x :: y :: ys

/-- The chain obtained by registering the interceptors one by one, in
registration order. -/
def sortChain {α β : Type} (regs : List (Interceptor α β)) :
    List (Interceptor α β) :=
  regs.foldl (fun acc x => insertChain x acc) []

/-- Modelled from the spec: run the bound chain on the given arguments.
Each link either forwards (possibly transforming arguments and the result),
short-circuits with a value, or raises; the tail of the chain is the
terminal default callable.  Returns the trace of calls made and the final
outcome. -/
def runChain {α β : Type} (dflt : α → Except String β) :
    List (Interceptor α β) → α → List (CallEvent α) × Except String β
  | [], a => ([CallEvent.callDefault a], dflt a)
  | i :: rest, a =>
    match i.step with
    | .shortCircuit v => ([CallEvent.intercept i.id a], Except.ok v)
    | .raiseErr e => ([CallEvent.intercept i.id a], Except.error e)
    | .callNext f g =>
      let r := runChain dflt rest (f a)
      (CallEvent.intercept i.id a :: r.1, r.2.map g)

/-- Modelled from the spec: invoke on an InterceptionHook builds the bound
chain from the registrations (priority ascending, ties in registration
order) and runs it, the default callable as the terminal link. -/
def invoke {α β : Type} (regs : List (Interceptor α β))
    (dflt : α → Except String β) (a : α) :
    List (CallEvent α) × Except String β :=
  runChain dflt (sortChain regs) a

/-- The order in which callables were visited: some id for an interceptor,
none for the terminal default. -/
def visitIds {α : Type} : List (CallEvent α) → List (Option Nat)
  | [] => []
  | CallEvent.intercept i _ :: es => some i :: visitIds es
  | CallEvent.callDefault _ :: es => none :: visitIds es

/-- Modelled from the spec: a listener registered on a NotificationHook
(action.py is missing from the excerpt); it carries an identity and a
callable whose return value invoke discards. -/
structure Listener (α β : Type) where
  id : Nat
  f : α → β

/-- Modelled from the spec: invoke on a NotificationHook calls every
registered listener, in registration order, with the identical arguments;
return values are discarded.  The result records which listener was called
with which arguments, in order. -/
def actionInvoke {α β : Type} : List (Listener α β) → α → List (Nat × α)
  | [], _ => []
  | l :: ls, a => (l.id, a) :: actionInvoke ls a

/-- The directive contribution point graphql_directives_hook
(misago/hooks/__init__.py) is a plain Python dict from directive name to
implementation; embedded as an ordered association list (Python dicts keep
insertion order). -/
def registerDirective {V : Type} (d : List (String × V)) (k : String) (v : V) :
    List (String × V) :=
  if d.any (fun p => p.1 == k)
  then d.map (fun p => if p.1 == k then (k, v) else p)
  else d ++ [(k, v)]

/-- Python dict item lookup on the association list. -/
def lookupDirective {V : Type} (d : List (String × V)) (k : String) : Option V :=
  (d.find? (fun p => p.1 == k)).map Prod.snd

end Hooks

namespace Themes

/-- A row of the theme table: the primary key and the is_active flag (the
only columns set_theme_as_active touches). -/
structure ThemeRow where
  pk : Nat
  is_active : Bool
deriving DecidableEq

/-- Embedded from set_theme_as_active (misago/themes/admin/views.py):
Theme.objects.update(is_active=False) clears the flag on every row, then
Theme.objects.filter(pk=theme.pk).update(is_active=True) sets it on the
rows whose pk equals the given theme's pk; clear_theme_cache touches no
table state. -/
def set_theme_as_active (themes : List ThemeRow) (pk : Nat) : List ThemeRow :=
  (themes.map (fun t => { t with is_active := false })).map
    (fun t => if t.pk == pk then { t with is_active := true } else t)

/-- Characters Python's int() strips around a numeral. -/
def pySpace (c : Char) : Bool :=
  c == ' ' || c == '\t' || c == '\n' || c == '\r' || c == '\x0b' || c == '\x0c'

/-- Drop leading whitespace from a character list. -/
def dropSpaces : List Char → List Char
  | [] => []
  | c :: cs => if pySpace c then dropSpaces cs else c :: cs

/-- Decimal value of a digit list, most significant first. -/
def digitsToNat : List Char → Nat → Nat
  | [], acc => acc
  | c :: cs, acc => digitsToNat cs (acc * 10 + (c.toNat - 48))

/-- Python's built-in int(str): optional surrounding whitespace, an
optional sign, then one or more decimal digits; anything else raises
ValueError, returned here as none. -/
def pyInt (s : String) : Option Int :=
  let t := (dropSpaces (dropSpaces s.data.reverse).reverse)
  match t with
  | [] => none
  | c :: cs =>
    let ds := if c == '-' || c == '+' then cs else c :: cs
    if !ds.isEmpty && ds.all (fun d => d.isDigit) then
      let n : Int := Int.ofNat (digitsToNat ds 0)
      if c == '-' then some (-n) else some n
    else none

/-- Parse every value, failing as a whole at the first unparseable one,
like the set comprehension with int() does. -/
def mapInts : List String → Option (List Int)
  | [] => some []
  | s :: ss =>
    match pyInt s, mapInts ss with
    | some n, some ns => some (n :: ns)
    | _, _ => none

/-- Embedded from DeleteThemeAssets.clean_items_list
(misago/themes/admin/views.py): the set comprehension over int(i) for the
first 20 posted item values; a ValueError from any of them makes the
method return None.  The Python set is embedded as the duplicate-free
list of first occurrences. -/
def clean_items_list (items : List String) : Option (List Int) :=
  (mapInts (items.take 20)).map List.dedup

/-- Embedded from DeleteThemeAssets.action: when clean_items_list gives a
truthy (non-empty) collection, delete_asset is called once per member
(deleting the asset with that pk when one exists); with None or an empty
set nothing is deleted.  Returns the pks passed to delete_asset. -/
def delete_theme_assets_action (items : List String) : List Int :=
  match clean_items_list items with
  | some l => if l.isEmpty then [] else l
  | none => []

/-- One observable effect of UploadThemeAssets.action. -/
inductive UploadEffect where
  | msgInfo
  | msgError (e : String)
  | msgSuccess
  | saveForm
  | queueBuild (pk : Nat)
deriving DecidableEq

/-- The pieces of the bound form that UploadThemeAssets.action consults:
what is_valid() returned, the assets that survived cleaning
(cleaned_data.get("assets"), truthy exactly when non-empty), and the
errors collected under the assets key. -/
structure UploadForm where
  is_valid : Bool
  cleaned_assets : List String
  asset_errors : List String

/-- Embedded from UploadThemeAssets.action (misago/themes/admin/views.py):
on an invalid form it emits an info message when some assets cleaned, then
one error message per assets error; afterwards — valid or not — when some
assets cleaned it saves the form, queues build_theme_css for the theme and
emits a success message.  Returns the effects in order. -/
def upload_theme_assets_action (form : UploadForm) (themePk : Nat) :
    List UploadEffect :=
  (if form.is_valid then []
   else
     (if form.cleaned_assets.isEmpty then [] else [UploadEffect.msgInfo])
       ++ form.asset_errors.map UploadEffect.msgError)
  ++ (if form.cleaned_assets.isEmpty then []
      else [UploadEffect.saveForm, UploadEffect.queueBuild themePk,
            UploadEffect.msgSuccess])

end Themes

end Misago

namespace Misago

namespace Hooks

theorem visitIds_append {α : Type} (xs ys : List (CallEvent α)) :
    visitIds (xs ++ ys) = visitIds xs ++ visitIds ys := by
  induction xs with
  | nil => rfl
  | cons x xs ih => cases x <;> simp [visitIds, ih]

theorem exceptMap_id {β : Type} (r : Except String β) : r.map (fun b => b) = r := by
  cases r <;> rfl

/-- C2: with zero registered interceptors, invoke calls the terminal
default callable once with the very arguments it was given and returns
exactly its result. -/
theorem invoke_nil_eq_default {α β : Type} (dflt : α → Except String β) (a : α) :
    invoke ([] : List (Interceptor α β)) dflt a
      = ([CallEvent.callDefault a], dflt a) := rfl

/-- Helper for C5: the trace of a NotificationHook invoke, spelled out. -/
theorem actionInvoke_eq_map {α β : Type} (ls : List (Listener α β)) (a : α) :
    actionInvoke ls a = ls.map (fun l => (l.id, a)) := by
  induction ls with
  | nil => rfl
  | cons l ls ih => simp [actionInvoke, ih]

/-- C5: one invoke of a NotificationHook with N registered listeners makes
exactly N listener calls, in registration order, each with arguments
identical to the ones passed to invoke (return values are not recorded:
they are discarded). -/
theorem action_invoke_calls {α β : Type} (ls : List (Listener α β)) (a : α) :
    (actionInvoke ls a).length = ls.length
    ∧ (actionInvoke ls a).map Prod.fst = ls.map (fun l => l.id)
    ∧ ∀ c ∈ actionInvoke ls a, c.2 = a := by
  refine ⟨?_, ?_, ?_⟩
  · rw [actionInvoke_eq_map]; simp
  · rw [actionInvoke_eq_map]; simp
  · intro c hc
    rw [actionInvoke_eq_map] at hc
    obtain ⟨l, _, rfl⟩ := List.mem_map.1 hc
    rfl

/-- C5 witness: two registered listeners on a concrete hook. -/
theorem action_invoke_calls_witness :
    (actionInvoke [Listener.mk 1 (fun n => n + 1), Listener.mk 2 (fun n => n * 2)] 5).length = 2
    ∧ (actionInvoke [Listener.mk 1 (fun n : Nat => n + 1), Listener.mk 2 (fun n => n * 2)] 5).map
        Prod.fst = [1, 2]
    ∧ ∀ c ∈ actionInvoke [Listener.mk 1 (fun n : Nat => n + 1), Listener.mk 2 (fun n => n * 2)] 5,
        c.2 = 5 := by
  have h := action_invoke_calls
    [Listener.mk 1 (fun n : Nat => n + 1), Listener.mk 2 (fun n => n * 2)] 5
  exact ⟨h.1, h.2.1, h.2.2⟩

theorem visitIds_runChain_indep {α β : Type} (chain : List (Interceptor α β))
    (d₁ d₂ : α → Except String β) :
    ∀ a₁ a₂ : α, visitIds (runChain d₁ chain a₁).1 = visitIds (runChain d₂ chain a₂).1 := by
  induction chain with
  | nil => intro a₁ a₂; rfl
  | cons i rest ih =>
    intro a₁ a₂
    cases hstep : i.step with
    | shortCircuit v => simp [runChain, hstep, visitIds]
    | raiseErr e => simp [runChain, hstep, visitIds]
    | callNext f g => simp [runChain, hstep, visitIds, ih (f a₁) (f a₂)]

theorem mem_insertChain {α β : Type} (x z : Interceptor α β) :
    ∀ l : List (Interceptor α β), z ∈ insertChain x l ↔ z = x ∨ z ∈ l := by
  intro l
  induction l with
  | nil => simp [insertChain]
  | cons y ys ih =>
    by_cases h : y.priority ≤ x.priority
    · simp only [insertChain, if_pos h, List.mem_cons, ih]
      tauto
    · rw [insertChain, if_neg h]
      simp [List.mem_cons]

theorem pairwise_insertChain {α β : Type} (x : Interceptor α β)
    (l : List (Interceptor α β))
    (h : l.Pairwise (fun i j => i.priority ≤ j.priority)) :
    (insertChain x l).Pairwise (fun i j => i.priority ≤ j.priority) := by
  induction l with
  | nil => simp [insertChain]
  | cons y ys ih =>
    rw [List.pairwise_cons] at h
    by_cases hle : y.priority ≤ x.priority
    · rw [insertChain, if_pos hle, List.pairwise_cons]
      refine ⟨?_, ih h.2⟩
      intro z hz
      rcases (mem_insertChain x z ys).1 hz with rfl | hz
      · exact hle
      · exact h.1 z hz
    · rw [insertChain, if_neg hle, List.pairwise_cons]
      refine ⟨?_, List.pairwise_cons.2 h⟩
      intro z hz
      rcases List.mem_cons.1 hz with rfl | hz
      · omega
      · have := h.1 z hz
        omega

theorem filter_insertChain {α β : Type} (x : Interceptor α β) (p : Nat) :
    ∀ l : List (Interceptor α β),
      l.Pairwise (fun i j => i.priority ≤ j.priority) →
      (insertChain x l).filter (fun i => i.priority == p)
        = if x.priority == p
          then l.filter (fun i => i.priority == p) ++ [x]
          else l.filter (fun i => i.priority == p) := by
  intro l
  induction l with
  | nil =>
    intro _
    by_cases hx : x.priority == p <;> simp [insertChain, hx]
  | cons y ys ih =>
    intro hs
    rw [List.pairwise_cons] at hs
    by_cases hle : y.priority ≤ x.priority
    · rw [insertChain, if_pos hle]
      by_cases hy : y.priority == p
      · simp only [List.filter_cons, hy, ih hs.2]
        by_cases hx : x.priority == p <;> simp [hx]
      · simp only [List.filter_cons, hy, ih hs.2]
        by_cases hx : x.priority == p <;> simp [hx]
    · rw [insertChain, if_neg hle]
      by_cases hx : x.priority == p
      · have hxp : x.priority = p := by simpa using hx
        have hnil : (y :: ys).filter (fun i => i.priority == p) = [] := by
          rw [List.filter_eq_nil_iff]
          intro z hz
          rcases List.mem_cons.1 hz with rfl | hz
          · simp only [beq_iff_eq]; omega
          · have := hs.1 z hz
            simp only [beq_iff_eq]; omega
        rw [hnil]
        simp [List.filter_cons, hx, hnil]
      · simp [List.filter_cons, hx]

theorem sortChain_foldl_invariant {α β : Type} (p : Nat) :
    ∀ (regs acc : List (Interceptor α β)),
      acc.Pairwise (fun i j => i.priority ≤ j.priority) →
      (regs.foldl (fun acc x => insertChain x acc) acc).Pairwise
          (fun i j => i.priority ≤ j.priority)
      ∧ (regs.foldl (fun acc x => insertChain x acc) acc).filter
            (fun i => i.priority == p)
        = acc.filter (fun i => i.priority == p)
            ++ regs.filter (fun i => i.priority == p) := by
  intro regs
  induction regs with
  | nil => intro acc hacc; simp [hacc]
  | cons x regs ih =>
    intro acc hacc
    have hins := pairwise_insertChain x acc hacc
    have h := ih (insertChain x acc) hins
    refine ⟨h.1, ?_⟩
    rw [List.foldl_cons]
    rw [h.2, filter_insertChain x p acc hacc]
    by_cases hx : x.priority == p <;> simp [hx, List.filter_cons]

theorem sortChain_sorted {α β : Type} (regs : List (Interceptor α β)) :
    (sortChain regs).Pairwise (fun i j => i.priority ≤ j.priority) :=
  (sortChain_foldl_invariant 0 regs [] (by simp)).1

theorem sortChain_stable {α β : Type} (regs : List (Interceptor α β)) (p : Nat) :
    (sortChain regs).filter (fun i => i.priority == p)
      = regs.filter (fun i => i.priority == p) := by
  have h := (sortChain_foldl_invariant p regs [] (by simp)).2
  simpa [sortChain] using h

theorem runChain_forward_visit {α β : Type} (dflt : α → Except String β) :
    ∀ chain : List (Interceptor α β),
      (∀ i ∈ chain, i.step.isForward = true) →
      ∀ a, visitIds (runChain dflt chain a).1
        = chain.map (fun i => some i.id) ++ [none] := by
  intro chain
  induction chain with
  | nil => intro _ a; rfl
  | cons i rest ih =>
    intro h a
    have hi := h i (List.mem_cons_self i rest)
    cases hstep : i.step with
    | shortCircuit v => rw [hstep] at hi; simp [IStep.isForward] at hi
    | raiseErr e => rw [hstep] at hi; simp [IStep.isForward] at hi
    | callNext f g =>
      have hrest : ∀ j ∈ rest, j.step.isForward = true := by
        intro j hj; exact h j (List.mem_cons_of_mem i hj)
      simp [runChain, hstep, visitIds, ih hrest (f a)]

/-- C1: invoke on an InterceptionHook visits the interceptors in
ascending-priority order (the bound chain is sorted by priority) with the
default callable invoked last, and interceptors of equal priority are
visited in registration order (for every priority, the chain restricted to
that priority equals the registration list restricted to it: stability).
The forwarding hypothesis makes every link reachable. -/
theorem invoke_priority_order {α β : Type} (regs : List (Interceptor α β))
    (dflt : α → Except String β) (a : α)
    (hfwd : ∀ i ∈ regs, i.step.isForward = true) :
    visitIds (invoke regs dflt a).1
        = (sortChain regs).map (fun i => some i.id) ++ [none]
    ∧ (sortChain regs).Pairwise (fun i j => i.priority ≤ j.priority)
    ∧ ∀ p, (sortChain regs).filter (fun i => i.priority == p)
          = regs.filter (fun i => i.priority == p) := by
  refine ⟨?_, sortChain_sorted regs, fun p => sortChain_stable regs p⟩
  have hchain : ∀ i ∈ sortChain regs, i.step.isForward = true := by
    intro i hi
    have hperm : ∀ p, (sortChain regs).filter (fun j => j.priority == p)
        = regs.filter (fun j => j.priority == p) := sortChain_stable regs
    have : i ∈ (sortChain regs).filter (fun j => j.priority == i.priority) := by
      simp [List.mem_filter, hi]
    rw [hperm i.priority] at this
    exact hfwd i (List.mem_filter.1 this).1
  exact runChain_forward_visit dflt (sortChain regs) hchain a

/-- C1 witness: Scenario C — interceptors with priorities 10 (id 1,
registered first) and 5 (id 2, registered second); the chain visits id 2,
then id 1, then the default. -/
theorem invoke_priority_order_witness :
    visitIds (invoke
        [Interceptor.mk 1 10 (IStep.callNext (fun a : Nat => a) (fun b : Nat => b)),
         Interceptor.mk 2 5 (IStep.callNext (fun a => a) (fun b => b))]
        (fun a => Except.ok a) 0).1
      = (sortChain
        [Interceptor.mk 1 10 (IStep.callNext (fun a : Nat => a) (fun b : Nat => b)),
         Interceptor.mk 2 5 (IStep.callNext (fun a => a) (fun b => b))]).map
          (fun i => some i.id) ++ [none]
    ∧ (sortChain
        [Interceptor.mk 1 10 (IStep.callNext (fun a : Nat => a) (fun b : Nat => b)),
         Interceptor.mk 2 5 (IStep.callNext (fun a => a) (fun b => b))]).Pairwise
          (fun i j => i.priority ≤ j.priority)
    ∧ ∀ p, (sortChain
        [Interceptor.mk 1 10 (IStep.callNext (fun a : Nat => a) (fun b : Nat => b)),
         Interceptor.mk 2 5 (IStep.callNext (fun a => a) (fun b => b))]).filter
          (fun i => i.priority == p)
        = ([Interceptor.mk 1 10 (IStep.callNext (fun a : Nat => a) (fun b : Nat => b)),
            Interceptor.mk 2 5 (IStep.callNext (fun a => a) (fun b => b))]).filter
          (fun i => i.priority == p) :=
  invoke_priority_order _ (fun a => Except.ok a) 0 (by
    intro i hi
    rcases List.mem_cons.1 hi with rfl | hi
    · rfl
    · rcases List.mem_cons.1 hi with rfl | hi
      · rfl
      · exact absurd hi (List.not_mem_nil i))

theorem exceptMap_error {β : Type} (g : β → β) (e : String) :
    (Except.error e : Except String β).map g = Except.error e := rfl

theorem runChain_forward_id_append {α β : Type} (dflt : α → Except String β) :
    ∀ pre : List (Interceptor α β),
      (∀ j ∈ pre, ∃ f, j.step = IStep.callNext f (fun b => b)) →
      ∀ (rest : List (Interceptor α β)) (a : α), ∃ a',
        visitIds (runChain dflt (pre ++ rest) a).1
          = pre.map (fun j => some j.id) ++ visitIds (runChain dflt rest a').1
        ∧ (runChain dflt (pre ++ rest) a).2 = (runChain dflt rest a').2 := by
  intro pre
  induction pre with
  | nil => intro _ rest a; exact ⟨a, by simp, rfl⟩
  | cons j pre ih =>
    intro hpre rest a
    obtain ⟨f, hf⟩ := hpre j (List.mem_cons_self j pre)
    obtain ⟨a', h1, h2⟩ :=
      ih (fun k hk => hpre k (List.mem_cons_of_mem j hk)) rest (f a)
    refine ⟨a', ?_, ?_⟩
    · simp [runChain, hf, visitIds, h1]
    · simp [runChain, hf, h2, exceptMap_id]

theorem runChain_forward_err_append {α β : Type} (dflt : α → Except String β) :
    ∀ pre : List (Interceptor α β),
      (∀ j ∈ pre, j.step.isForward = true) →
      ∀ (rest : List (Interceptor α β)) (a : α), ∃ a',
        visitIds (runChain dflt (pre ++ rest) a).1
          = pre.map (fun j => some j.id) ++ visitIds (runChain dflt rest a').1
        ∧ ∀ e, (runChain dflt rest a').2 = Except.error e →
            (runChain dflt (pre ++ rest) a).2 = Except.error e := by
  intro pre
  induction pre with
  | nil => intro _ rest a; exact ⟨a, by simp, fun _ he => he⟩
  | cons j pre ih =>
    intro hpre rest a
    have hj := hpre j (List.mem_cons_self j pre)
    cases hf : j.step with
    | shortCircuit v => rw [hf] at hj; simp [IStep.isForward] at hj
    | raiseErr e => rw [hf] at hj; simp [IStep.isForward] at hj
    | callNext f g =>
      obtain ⟨a', h1, h2⟩ :=
        ih (fun k hk => hpre k (List.mem_cons_of_mem j hk)) rest (f a)
      refine ⟨a', ?_, ?_⟩
      · simp [runChain, hf, visitIds, h1]
      · intro e he
        have hrec := h2 e he
        simp [runChain, hf, hrec, Except.map]

theorem visitIds_none_of_default {α : Type} (b : α) :
    ∀ tr : List (CallEvent α), CallEvent.callDefault b ∈ tr → none ∈ visitIds tr := by
  intro tr
  induction tr with
  | nil => intro h; exact absurd h (List.not_mem_nil _)
  | cons e es ih =>
    intro h
    obtain he | hmem := List.mem_cons.1 h
    · rw [← he]
      simp [visitIds]
    · cases e with
      | intercept i args =>
        simp only [visitIds, List.mem_cons]
        exact Or.inr (ih hmem)
      | callDefault args => simp [visitIds]

/-- C3: if the chain reaches an interceptor that returns a value without
calling next (earlier links being plain pass-throughs), no later
interceptor and not the default callable is invoked — the whole trace is
the earlier links and that interceptor — and the result of invoke is
exactly the value it returned. -/
theorem invoke_short_circuit {α β : Type} (regs : List (Interceptor α β))
    (dflt : α → Except String β) (a : α)
    (pre post : List (Interceptor α β)) (i : Interceptor α β) (v : β)
    (hchain : sortChain regs = pre ++ i :: post)
    (hpre : ∀ j ∈ pre, ∃ f, j.step = IStep.callNext f (fun b => b))
    (hi : i.step = IStep.shortCircuit v) :
    (invoke regs dflt a).2 = Except.ok v
    ∧ visitIds (invoke regs dflt a).1
        = pre.map (fun j => some j.id) ++ [some i.id]
    ∧ ∀ b, CallEvent.callDefault b ∉ (invoke regs dflt a).1 := by
  obtain ⟨a', h1, h2⟩ := runChain_forward_id_append dflt pre hpre (i :: post) a
  have hrun : runChain dflt (i :: post) a'
      = ([CallEvent.intercept i.id a'], Except.ok v) := by
    simp [runChain, hi]
  have hinv : invoke regs dflt a = runChain dflt (pre ++ i :: post) a := by
    rw [invoke, hchain]
  refine ⟨?_, ?_, ?_⟩
  · rw [hinv, h2, hrun]
  · rw [hinv, h1, hrun]
    rfl
  · intro b hb
    have hnone : none ∈ visitIds (invoke regs dflt a).1 :=
      visitIds_none_of_default b _ hb
    rw [hinv, h1, hrun] at hnone
    simp [visitIds] at hnone

/-- C3 witness: Scenario B — one interceptor that returns 42 without
calling next, on a hook whose default raises; invoke returns 42, with a
one-call trace and the default never invoked. -/
theorem invoke_short_circuit_witness :
    (invoke [Interceptor.mk 1 0 (IStep.shortCircuit (42 : Nat))]
        (fun _ : Nat => Except.error "NotImplementedError") 0).2 = Except.ok 42
    ∧ visitIds (invoke [Interceptor.mk 1 0 (IStep.shortCircuit (42 : Nat))]
        (fun _ : Nat => Except.error "NotImplementedError") 0).1
        = ([] : List (Interceptor Nat Nat)).map (fun j => some j.id) ++ [some 1]
    ∧ ∀ b, CallEvent.callDefault b
        ∉ (invoke [Interceptor.mk 1 0 (IStep.shortCircuit (42 : Nat))]
            (fun _ : Nat => Except.error "NotImplementedError") 0).1 :=
  invoke_short_circuit [Interceptor.mk 1 0 (IStep.shortCircuit (42 : Nat))]
    (fun _ : Nat => Except.error "NotImplementedError") 0 [] []
    (Interceptor.mk 1 0 (IStep.shortCircuit (42 : Nat))) 42 rfl (by simp) rfl

/-- C4: if the chain reaches an interceptor that raises (earlier links
being forwarders), no later interceptor and not the default callable runs,
and invoke re-raises exactly that error, unmodified, to its caller. -/
theorem invoke_raise_propagates {α β : Type} (regs : List (Interceptor α β))
    (dflt : α → Except String β) (a : α)
    (pre post : List (Interceptor α β)) (i : Interceptor α β) (e : String)
    (hchain : sortChain regs = pre ++ i :: post)
    (hpre : ∀ j ∈ pre, j.step.isForward = true)
    (hi : i.step = IStep.raiseErr e) :
    (invoke regs dflt a).2 = Except.error e
    ∧ visitIds (invoke regs dflt a).1
        = pre.map (fun j => some j.id) ++ [some i.id]
    ∧ ∀ b, CallEvent.callDefault b ∉ (invoke regs dflt a).1 := by
  obtain ⟨a', h1, h2⟩ := runChain_forward_err_append dflt pre hpre (i :: post) a
  have hrun : runChain dflt (i :: post) a'
      = ([CallEvent.intercept i.id a'], Except.error e) := by
    simp [runChain, hi]
  have hinv : invoke regs dflt a = runChain dflt (pre ++ i :: post) a := by
    rw [invoke, hchain]
  refine ⟨?_, ?_, ?_⟩
  · rw [hinv]
    exact h2 e (by rw [hrun])
  · rw [hinv, h1, hrun]
    rfl
  · intro b hb
    have hnone : none ∈ visitIds (invoke regs dflt a).1 :=
      visitIds_none_of_default b _ hb
    rw [hinv, h1, hrun] at hnone
    simp [visitIds] at hnone

/-- C4 witness: one interceptor that raises on a hook with an ok default;
invoke propagates the same error, the default is never called. -/
theorem invoke_raise_propagates_witness :
    (invoke [Interceptor.mk 1 0 (IStep.raiseErr "boom" : IStep Nat Nat)]
        (fun a : Nat => Except.ok a) 7).2 = Except.error "boom"
    ∧ visitIds (invoke [Interceptor.mk 1 0 (IStep.raiseErr "boom" : IStep Nat Nat)]
        (fun a : Nat => Except.ok a) 7).1
        = ([] : List (Interceptor Nat Nat)).map (fun j => some j.id) ++ [some 1]
    ∧ ∀ b, CallEvent.callDefault b
        ∉ (invoke [Interceptor.mk 1 0 (IStep.raiseErr "boom" : IStep Nat Nat)]
            (fun a : Nat => Except.ok a) 7).1 :=
  invoke_raise_propagates [Interceptor.mk 1 0 (IStep.raiseErr "boom" : IStep Nat Nat)]
    (fun a : Nat => Except.ok a) 7 [] []
    (Interceptor.mk 1 0 (IStep.raiseErr "boom" : IStep Nat Nat)) "boom" rfl (by simp) rfl

/-- C6: invoke is deterministic with respect to call ordering — for a
fixed set of registered interceptors the sequence of interceptor/default
calls it makes is the same on every run, independent even of the arguments
and of the default callable's behaviour (interceptor result values, which
may come from impure work, cannot change the order). -/
theorem invoke_order_deterministic {α β : Type} (regs : List (Interceptor α β))
    (d₁ d₂ : α → Except String β) (a₁ a₂ : α) :
    visitIds (invoke regs d₁ a₁).1 = visitIds (invoke regs d₂ a₂).1 :=
  visitIds_runChain_indep (sortChain regs) d₁ d₂ a₁ a₂

end Hooks

end Misago

namespace Misago

namespace Hooks

theorem find?_map_update_self {V : Type} (k : String) (v : V) :
    ∀ d : List (String × V), d.any (fun p => p.1 == k) = true →
      (d.map (fun p => if p.1 == k then (k, v) else p)).find? (fun p => p.1 == k)
        = some (k, v) := by
  intro d
  induction d with
  | nil => intro h; simp at h
  | cons a d ih =>
    intro h
    by_cases ha : (a.1 == k) = true
    · rw [List.map_cons, if_pos ha]
      simp [List.find?_cons]
    · have ha0 : (a.1 == k) = false := by simpa using ha
      rw [List.map_cons, if_neg ha]
      simp only [List.find?_cons, ha0]
      apply ih
      rcases List.any_eq_true.1 h with ⟨x, hx, hpx⟩
      rcases List.mem_cons.1 hx with rfl | hx
      · exact absurd hpx ha
      · exact List.any_eq_true.2 ⟨x, hx, hpx⟩

theorem find?_map_update_ne {V : Type} (k k' : String) (v : V) (hne : k' ≠ k) :
    ∀ d : List (String × V),
      (d.map (fun p => if p.1 == k then (k, v) else p)).find? (fun p => p.1 == k')
        = d.find? (fun p => p.1 == k') := by
  intro d
  induction d with
  | nil => rfl
  | cons a d ih =>
    by_cases ha : (a.1 == k) = true
    · have ha' : a.1 = k := by simpa using ha
      have hkk' : (k == k') = false := beq_eq_false_iff_ne.2 (Ne.symm hne)
      have hak' : (a.1 == k') = false := by rw [ha']; exact hkk'
      rw [List.map_cons, if_pos ha]
      simp only [List.find?_cons, hkk', hak']
      exact ih
    · rw [List.map_cons, if_neg ha]
      by_cases hk' : (a.1 == k') = true
      · simp only [List.find?_cons, hk']
      · have hk0 : (a.1 == k') = false := by simpa using hk'
        simp only [List.find?_cons, hk0]
        exact ih

theorem lookup_registerDirective_self {V : Type} (d : List (String × V))
    (k : String) (v : V) :
    lookupDirective (registerDirective d k v) k = some v := by
  unfold registerDirective lookupDirective
  by_cases hany : d.any (fun p => p.1 == k) = true
  · rw [if_pos hany, find?_map_update_self k v d hany]
    rfl
  · rw [if_neg hany, List.find?_append]
    have h1 : d.find? (fun p => p.1 == k) = none :=
      List.find?_eq_none.2 (fun x hx hpx => hany (List.any_eq_true.2 ⟨x, hx, hpx⟩))
    rw [h1]
    simp [List.find?]

theorem lookup_registerDirective_ne {V : Type} (d : List (String × V))
    (k k' : String) (v : V) (hne : k' ≠ k) :
    lookupDirective (registerDirective d k v) k' = lookupDirective d k' := by
  unfold registerDirective lookupDirective
  by_cases hany : d.any (fun p => p.1 == k) = true
  · rw [if_pos hany, find?_map_update_ne k k' v hne d]
  · rw [if_neg hany, List.find?_append]
    have h2 : (([(k, v)] : List (String × V)).find? (fun p => p.1 == k')) = none := by
      have hkk' : (k == k') = false := beq_eq_false_iff_ne.2 (Ne.symm hne)
      simp [List.find?_cons, hkk']
    rw [h2]
    simp

/-- C7: registering a directive implementation under an already-present
directive name takes the overwrite branch of the contract: the operation
is Python dict item assignment, which never raises, and after two
registrations under the same key a lookup yields the second value while
every other key is untouched. -/
theorem directive_second_registration_overwrites {V : Type}
    (d : List (String × V)) (k : String) (v₁ v₂ : V) :
    lookupDirective (registerDirective (registerDirective d k v₁) k v₂) k = some v₂
    ∧ ∀ k', k' ≠ k →
        lookupDirective (registerDirective (registerDirective d k v₁) k v₂) k'
          = lookupDirective d k' := by
  constructor
  · exact lookup_registerDirective_self _ k v₂
  · intro k' hne
    rw [lookup_registerDirective_ne _ k k' v₂ hne,
      lookup_registerDirective_ne _ k k' v₁ hne]

/-- C7 witness: Scenario D — registering the name auth twice; the second
implementation wins and an unrelated name is unaffected. -/
theorem directive_second_registration_overwrites_witness :
    lookupDirective
        (registerDirective (registerDirective ([] : List (String × Nat)) "auth" 1)
          "auth" 2) "auth" = some 2
    ∧ lookupDirective
        (registerDirective (registerDirective ([] : List (String × Nat)) "auth" 1)
          "auth" 2) "other"
        = lookupDirective ([] : List (String × Nat)) "other" := by
  have h := directive_second_registration_overwrites ([] : List (String × Nat)) "auth" 1 2
  exact ⟨h.1, h.2 "other" (by decide)⟩

end Hooks

end Misago

namespace Misago

namespace Themes

theorem set_theme_as_active_eq_map (themes : List ThemeRow) (pk : Nat) :
    set_theme_as_active themes pk
      = themes.map (fun t => ThemeRow.mk t.pk (t.pk == pk)) := by
  unfold set_theme_as_active
  rw [List.map_map]
  congr 1
  funext t
  by_cases h : (t.pk == pk) = true <;> simp [Function.comp, h]

theorem countP_pk_le_one (pk : Nat) :
    ∀ l : List ThemeRow, (l.map ThemeRow.pk).Nodup →
      l.countP (fun t => t.pk == pk) ≤ 1 := by
  intro l
  induction l with
  | nil => intro _; simp
  | cons u l ih =>
    intro h
    rw [List.map_cons, List.nodup_cons] at h
    rw [List.countP_cons]
    by_cases hu : (u.pk == pk) = true
    · have hu' : u.pk = pk := by simpa using hu
      have h0 : l.countP (fun t => t.pk == pk) = 0 := by
        rw [List.countP_eq_zero]
        intro t ht hpt
        have ht' : t.pk = pk := by simpa using hpt
        exact h.1 (List.mem_map.2 ⟨t, ht, by rw [ht', hu']⟩)
      simp [hu, h0]
    · have hu0 : (u.pk == pk) = false := by simpa using hu
      simp only [hu0, if_false]
      simpa using ih h.2

/-- C8: after set_theme_as_active a row is active exactly when its pk is
the given theme's pk, so every other theme is inactive, the given theme
(when present in the table) is active, and — pk being a proper primary key
(no duplicates) — at most one row is marked is_active, whatever the prior
flags were. -/
theorem set_theme_as_active_exclusive (themes : List ThemeRow) (pk : Nat)
    (hpk : (themes.map ThemeRow.pk).Nodup) :
    (∀ t ∈ set_theme_as_active themes pk, t.is_active = (t.pk == pk))
    ∧ ((set_theme_as_active themes pk).filter (fun t => t.is_active)).length ≤ 1
    ∧ ((∃ t ∈ themes, t.pk = pk) →
        ∃ t ∈ set_theme_as_active themes pk, t.pk = pk ∧ t.is_active = true) := by
  rw [set_theme_as_active_eq_map]
  refine ⟨?_, ?_, ?_⟩
  · intro t ht
    obtain ⟨u, _, rfl⟩ := List.mem_map.1 ht
    rfl
  · rw [← List.countP_eq_length_filter, List.countP_map]
    exact countP_pk_le_one pk themes hpk
  · rintro ⟨u, hu, hupk⟩
    refine ⟨ThemeRow.mk u.pk (u.pk == pk), List.mem_map.2 ⟨u, hu, rfl⟩, hupk, ?_⟩
    simp [hupk]

/-- C8 witness: a two-theme table where theme 1 was active; activating
theme 2 leaves exactly it active. -/
theorem set_theme_as_active_exclusive_witness :
    (∀ t ∈ set_theme_as_active [ThemeRow.mk 1 true, ThemeRow.mk 2 false] 2,
        t.is_active = (t.pk == 2))
    ∧ ((set_theme_as_active [ThemeRow.mk 1 true, ThemeRow.mk 2 false] 2).filter
        (fun t => t.is_active)).length ≤ 1
    ∧ ((∃ t ∈ [ThemeRow.mk 1 true, ThemeRow.mk 2 false], t.pk = 2) →
        ∃ t ∈ set_theme_as_active [ThemeRow.mk 1 true, ThemeRow.mk 2 false] 2,
          t.pk = 2 ∧ t.is_active = true) :=
  set_theme_as_active_exclusive [ThemeRow.mk 1 true, ThemeRow.mk 2 false] 2 (by decide)

theorem mapInts_eq_none (s : String) :
    ∀ l : List String, s ∈ l → pyInt s = none → mapInts l = none := by
  intro l
  induction l with
  | nil => intro h; exact absurd h (List.not_mem_nil _)
  | cons a l ih =>
    intro hmem hs
    obtain he | hm := List.mem_cons.1 hmem
    · rw [← he] at *
      cases hr : mapInts l <;> simp [mapInts, hs, hr]
    · cases ha : pyInt a <;> simp [mapInts, ha, ih hm hs]

theorem mapInts_length :
    ∀ (l : List String) (r : List Int), mapInts l = some r → r.length = l.length := by
  intro l
  induction l with
  | nil =>
    intro r h
    simp [mapInts] at h
    subst h
    rfl
  | cons a l ih =>
    intro r h
    cases ha : pyInt a with
    | none => rw [mapInts, ha] at h; cases hm : mapInts l <;> rw [hm] at h <;> simp at h
    | some n =>
      cases hm : mapInts l with
      | none => rw [mapInts, ha, hm] at h; simp at h
      | some ns =>
        rw [mapInts, ha, hm] at h
        simp at h
        rw [← h]
        simp [ih ns hm]

/-- C9: a POST to DeleteThemeAssets deletes at most 20 distinct assets —
only the first 20 posted item values are considered and duplicates
collapse — and if any of those first 20 values is not parseable as an
integer, clean_items_list returns None and nothing at all is deleted. -/
theorem delete_assets_bounded (items : List String) :
    (delete_theme_assets_action items).Nodup
    ∧ (delete_theme_assets_action items).length ≤ 20
    ∧ ∀ s ∈ items.take 20, pyInt s = none →
        clean_items_list items = none ∧ delete_theme_assets_action items = [] := by
  refine ⟨?_, ?_, ?_⟩
  · cases hm : mapInts (items.take 20) with
    | none => simp [delete_theme_assets_action, clean_items_list, hm]
    | some r =>
      by_cases hr : r.dedup.isEmpty = true
      · simp [delete_theme_assets_action, clean_items_list, hm, hr]
      · simp [delete_theme_assets_action, clean_items_list, hm, hr, List.nodup_dedup]
  · cases hm : mapInts (items.take 20) with
    | none => simp [delete_theme_assets_action, clean_items_list, hm]
    | some r =>
      have h1 : r.dedup.length ≤ r.length := (List.dedup_sublist r).length_le
      have h2 : r.length = (items.take 20).length := mapInts_length _ r hm
      have h3 : (items.take 20).length ≤ 20 := by
        rw [List.length_take]
        exact Nat.min_le_left _ _
      have hclean : clean_items_list items = some r.dedup := by
        unfold clean_items_list
        rw [hm]
        rfl
      by_cases hr : r.dedup.isEmpty = true
      · simp [delete_theme_assets_action, hclean, hr]
      · have hact : delete_theme_assets_action items = r.dedup := by
          unfold delete_theme_assets_action
          rw [hclean]
          simp [hr]
        rw [hact]
        omega
  · intro s hs hnone
    have hm : mapInts (items.take 20) = none := mapInts_eq_none s (items.take 20) hs hnone
    constructor
    · simp [clean_items_list, hm]
    · simp [delete_theme_assets_action, clean_items_list, hm]

/-- C9 witness: the second posted value is not a number, so nothing is
deleted. -/
theorem delete_assets_bounded_witness :
    clean_items_list ["5", "x"] = none ∧ delete_theme_assets_action ["5", "x"] = [] :=
  (delete_assets_bounded ["5", "x"]).2.2 "x" (by decide) (by decide)

/-- C10: whenever at least one uploaded asset passed cleaning,
UploadThemeAssets.action saves the form, queues the theme CSS rebuild and
emits the success message — the form being invalid does not prevent it —
and in the partially-invalid case the same request also emits the error
message for every rejected asset (plus the partial-success info message). -/
theorem upload_action_saves_when_assets_cleaned (form : UploadForm) (themePk : Nat)
    (hassets : form.cleaned_assets ≠ []) :
    UploadEffect.saveForm ∈ upload_theme_assets_action form themePk
    ∧ UploadEffect.queueBuild themePk ∈ upload_theme_assets_action form themePk
    ∧ UploadEffect.msgSuccess ∈ upload_theme_assets_action form themePk
    ∧ (form.is_valid = false →
        (∀ e ∈ form.asset_errors,
          UploadEffect.msgError e ∈ upload_theme_assets_action form themePk)
        ∧ UploadEffect.msgInfo ∈ upload_theme_assets_action form themePk) := by
  have hne : form.cleaned_assets.isEmpty = false := by
    cases hc : form.cleaned_assets with
    | nil => exact absurd hc hassets
    | cons a l => rfl
  refine ⟨?_, ?_, ?_, ?_⟩
  · simp [upload_theme_assets_action, hne]
  · simp [upload_theme_assets_action, hne]
  · simp [upload_theme_assets_action, hne]
  · intro hv
    constructor
    · intro e he
      simp [upload_theme_assets_action, hne, hv, he]
    · simp [upload_theme_assets_action, hne, hv]

/-- C10 witness: an invalid form whose cleaning accepted one css file and
rejected another; the request saves, queues the rebuild, reports success
and reports the error. -/
theorem upload_action_saves_when_assets_cleaned_witness :
    UploadEffect.saveForm
        ∈ upload_theme_assets_action (UploadForm.mk false ["a.css"] ["bad file"]) 7
    ∧ UploadEffect.queueBuild 7
        ∈ upload_theme_assets_action (UploadForm.mk false ["a.css"] ["bad file"]) 7
    ∧ UploadEffect.msgSuccess
        ∈ upload_theme_assets_action (UploadForm.mk false ["a.css"] ["bad file"]) 7
    ∧ ((UploadForm.mk false ["a.css"] ["bad file"]).is_valid = false →
        (∀ e ∈ (UploadForm.mk false ["a.css"] ["bad file"]).asset_errors,
          UploadEffect.msgError e
            ∈ upload_theme_assets_action (UploadForm.mk false ["a.css"] ["bad file"]) 7)
        ∧ UploadEffect.msgInfo
            ∈ upload_theme_assets_action (UploadForm.mk false ["a.css"] ["bad file"]) 7) :=
  upload_action_saves_when_assets_cleaned
    (UploadForm.mk false ["a.css"] ["bad file"]) 7 (by decide)

end Themes

end Misago
